import Mathlib

open scoped List

/-!
Verification of the jigsaw geometry and reveal-state engine of
`life-puzzle` (`src/app.js`), as a shallow embedding.

Modelling choices:
* JS numbers are embedded as exact rationals `ℚ` (all quantities in the
  verified core are produced by arithmetic on small integers and user
  floats; no precision-critical float behavior is claimed by the spec).
* `Math.round` is round-half-toward-plus-infinity, i.e. `⌊x + 1/2⌋`.
* `Math.random` and its consumers are made deterministic by passing an
  explicit stream `rng : ℕ → ℚ` of draws, consumed in program order
  (draw `k` of a call is `rng k`).
* JS arrays become `List`; the `Set` built in `Puzzle.reveal` becomes
  first-occurrence deduplication (`Set` iteration is insertion order).
* The SVG path string built by `piecePath` becomes a list of structured
  path commands (`M`/`L`/`C`/`Z`) carrying the same coordinates.
-/

/-- JS `Math.round`: round half toward +∞. -/
def jsRound (q : ℚ) : ℤ := ⌊q + 1/2⌋

/-- `clamp(n, min, max)` from `src/app.js` line 365:
`Math.min(max, Math.max(min, n))`. -/
def clampQ (n lo hi : ℚ) : ℚ := min hi (max lo n)

/-- JS `l.slice(0, e)`: a negative end index counts from the end of the
array (`max(l.length + e, 0)`), a non-negative one is clamped to the
length. -/
def jsSlice0 {α : Type _} (l : List α) (e : ℤ) : List α :=
  if e < 0 then l.take ((l.length : ℤ) + e).toNat else l.take e.toNat

/-- `[arr[i], arr[j]] = [arr[j], arr[i]]`: swap two positions of a list.
Out-of-range indices leave the list unchanged (the source only swaps
in-range indices; the fallback makes the function total). -/
def listSwap {α : Type _} (l : List α) (i j : ℕ) : List α :=
  if h : i < l.length ∧ j < l.length then
    (l.set i (l.get ⟨j, h.2⟩)).set j (l.get ⟨i, h.1⟩)
  else l

/-- The Fisher-Yates loop of `Puzzle.reveal` / `migrateToFixedGrid`:
`for (let i = len-1; i > 0; i--) { j = floor(random()*(i+1)); swap(i,j) }`.
`i` is the current loop index, `k` the number of draws consumed so far. -/
def fyAux {α : Type _} (rng : ℕ → ℚ) : List α → ℕ → ℕ → List α
  | l, 0, _ => l
  | l, i + 1, k =>
      fyAux rng (listSwap l (i + 1) (⌊rng k * ((i : ℚ) + 2)⌋).toNat) i (k + 1)

/-- Full in-place shuffle of a list, as in the source. -/
def fyShuffle {α : Type _} (rng : ℕ → ℚ) (l : List α) : List α :=
  fyAux rng l (l.length - 1) 0

/-- `new Set(list)` spread back to an array: the distinct elements of
`list`, keeping the first occurrence of each, in order. -/
def firstDedup : List ℕ → List ℕ
  | [] => []
  | a :: l => a :: firstDedup (l.filter (fun x => decide (x ≠ a)))
termination_by l => l.length
decreasing_by
  simp only [List.length_cons]
  exact Nat.lt_succ_of_le (List.length_filter_le _ _)

/-- `makeEdges(rows, cols, rng)` from `src/app.js` lines 298-310.
The source draws one random per slot, `h` rows first then `v` rows, in
row-major order; draw number `k` of the call is `rng k`, so the `h` slot
`(r, c)` uses draw `r*cols + c` and the `v` slot `(r, c)` uses draw
`(rows-1)*cols + r*(cols-1) + c`. A draw `> 0.5` gives `1`, else `-1`. -/
def makeEdges (rows cols : ℕ) (rng : ℕ → ℚ) :
    List (List ℤ) × List (List ℤ) :=
  ((List.range (rows - 1)).map (fun r =>
      (List.range cols).map (fun c =>
        if rng (r * cols + c) > 0.5 then (1 : ℤ) else -1)),
   (List.range rows).map (fun r =>
      (List.range (cols - 1)).map (fun c =>
        if rng ((rows - 1) * cols + r * (cols - 1) + c) > 0.5
        then (1 : ℤ) else -1)))

/-- A project record, restricted to the fields the verified core reads
and writes (`rows`, `cols`, `hEdges`, `vEdges`, `revealed`, `progress`).
`progress` is `none` when the stored field is not a number (legacy data);
missing `rows`/`cols` are `0`, matching the `p.rows||0` coalescing in
`migrateToFixedGrid`. -/
structure Project where
  rows : ℕ
  cols : ℕ
  hEdges : List (List ℤ)
  vEdges : List (List ℤ)
  revealed : List ℕ
  progress : Option ℚ
deriving DecidableEq, Repr

/-- `rows * cols`, the piece count. -/
def totalOf (p : Project) : ℕ := p.rows * p.cols

/-- The currently hidden cell indices, in increasing order, as computed
at the top of `Puzzle.reveal`:
`for (i = 0; i < total; i++) if (!revealedSet.has(i)) hidden.push(i)`. -/
def hiddenOf (p : Project) : List ℕ :=
  (List.range (totalOf p)).filter (fun i => decide (i ∉ p.revealed))

/-- `Puzzle.reveal(count)` from `src/app.js` lines 449-477, DOM work
omitted. Returns the mutated project and the returned value `toReveal`.
`count` is an arbitrary integer (the source never checks its sign). -/
def reveal (rng : ℕ → ℚ) (p : Project) (count : ℤ) : Project × ℤ :=
  let total := totalOf p
  let revealedSet := firstDedup p.revealed
  let hidden := hiddenOf p
  let toReveal : ℤ := min count (hidden.length : ℤ)
  let shuffled := fyShuffle rng hidden
  let pick := jsSlice0 shuffled toReveal
  let revealed' := revealedSet ++ pick
  let progress' := jsRound ((revealed'.length : ℚ) / (total : ℚ) * 100)
  ({ p with revealed := revealed', progress := some (progress' : ℚ) },
   toReveal)

/-- `migrateToFixedGrid` from `src/app.js` lines 1118-1138, for one
project. The call consumes 180 draws in `makeEdges(10,10)` (90 `h` slots
plus 90 `v` slots) and then 99 draws in the shuffle of `0..99`, so the
shuffle stream starts at draw 180.
The source guards `Array.isArray(p.revealed)`; `revealed` is a list in
this model, so that guard is always true here. -/
def migrateToFixedGrid (rng : ℕ → ℚ) (p : Project) : Project :=
  let total := p.rows * p.cols
  if total = 100 then p
  else
    let prevTotal := if total > 0 then total else 100
    let prevRevealed := p.revealed.length
    let pct : ℚ :=
      match p.progress with
      | some pr => clampQ pr 0 100
      | none => (jsRound ((prevRevealed : ℚ) / (prevTotal : ℚ) * 100) : ℚ)
    let edges := makeEdges 10 10 rng
    let targetPieces := jsRound (pct / 100 * 100)
    let idxs := fyShuffle (fun k => rng (180 + k)) (List.range 100)
    let revealed' := jsSlice0 idxs targetPieces
    let progress' := jsRound ((revealed'.length : ℚ) / 100 * 100)
    { rows := 10, cols := 10, hEdges := edges.1, vEdges := edges.2,
      revealed := revealed', progress := some (progress' : ℚ) }

/-- The reveal count computed by `onTimerComplete` (`src/app.js` lines
898-912): session percentage clamped to [0,100], target percentage
clamped, `targetPieces = round(targetPct * total / 100)`,
`need = max(0, targetPieces - currentPieces)`. `selected.progress || 0`
becomes `p.progress.getD 0`. -/
def onTimerCompleteNeed (sessionPctRaw : ℚ) (p : Project) : ℤ :=
  let pct := clampQ sessionPctRaw 0 100
  let totalPieces := p.rows * p.cols
  let currentPieces := p.revealed.length
  let targetPct := clampQ (p.progress.getD 0 + pct) 0 100
  let targetPieces := jsRound (targetPct * (totalPieces : ℚ) / 100)
  max 0 (targetPieces - (currentPieces : ℤ))

/-- `onTimerComplete` then calls `els.puzzle.reveal(need)`. -/
def onTimerComplete (rng : ℕ → ℚ) (sessionPctRaw : ℚ) (p : Project) :
    Project × ℤ :=
  reveal rng p (onTimerCompleteNeed sessionPctRaw p)

/-- The stage-size computation of `Puzzle.render` (`src/app.js` lines
393-400): usable area is the container minus a 24px margin floored at
200px, aspect defaults to 16/10 when the stored aspect is absent or `0`
(JS `||` treats `0` as falsy), width-first fit with integer flooring.
Returns `(W, H)`. -/
def computeLayout (cw ch : ℚ) (imageAspect : Option ℚ) : ℤ × ℤ :=
  let maxW := max 200 (cw - 24)
  let maxH := max 200 (ch - 24)
  let aspect : ℚ :=
    match imageAspect with
    | some a => if a = 0 then 16 / 10 else a
    | none => 16 / 10
  let W := ⌊maxW⌋
  let H := ⌊(W : ℚ) / aspect⌋
  if (H : ℚ) > maxH then (⌊(⌊maxH⌋ : ℚ) * aspect⌋, ⌊maxH⌋) else (W, H)

/-- Per-cell edge signs, as derived at both render sites
(`src/app.js` lines 432-435 and 1076-1079):
`top = (r === 0) ? 0 : -hEdges[r-1][c]`. -/
def pieceTopSign (hE : List (List ℤ)) (r c : ℕ) : ℤ :=
  if r = 0 then 0 else -((hE.getD (r - 1) []).getD c 0)

/-- `right = (c === cols-1) ? 0 : vEdges[r][c]`. -/
def pieceRightSign (vE : List (List ℤ)) (cols r c : ℕ) : ℤ :=
  if c = cols - 1 then 0 else (vE.getD r []).getD c 0

/-- `bottom = (r === rows-1) ? 0 : hEdges[r][c]`. -/
def pieceBottomSign (hE : List (List ℤ)) (rows r c : ℕ) : ℤ :=
  if r = rows - 1 then 0 else (hE.getD r []).getD c 0

/-- `left = (c === 0) ? 0 : -vEdges[r][c-1]`. -/
def pieceLeftSign (vE : List (List ℤ)) (r c : ℕ) : ℤ :=
  if c = 0 then 0 else -((vE.getD r []).getD (c - 1) 0)

/-- One SVG path command with its coordinates, the structured form of
the `M`/`L`/`C`/`Z` strings pushed by `piecePath`. -/
inductive PathCmd where
  | move : ℚ × ℚ → PathCmd
  | line : ℚ × ℚ → PathCmd
  | curve : ℚ × ℚ → ℚ × ℚ → ℚ × ℚ → PathCmd
  | close : PathCmd
deriving DecidableEq, Repr

/-- Top-edge commands of `piecePath` (`src/app.js` lines 325-332);
`y = 0`, `mid = w/2`, `sign = edgeTop`. -/
def edgeCmdsTop (w neck ctrl : ℚ) (s : ℤ) : List PathCmd :=
  if s = 0 then [.line (w, 0)]
  else
    [.line (w / 2 - neck, 0),
     .curve (w / 2 - neck, 0) (w / 2 - neck, -(s : ℚ) * ctrl)
       (w / 2, -(s : ℚ) * ctrl),
     .curve (w / 2 + neck, -(s : ℚ) * ctrl) (w / 2 + neck, 0)
       (w / 2 + neck, 0),
     .line (w, 0)]

/-- Right-edge commands (`src/app.js` lines 334-341); `x = w`,
`mid = h/2`, `sign = edgeRight`. -/
def edgeCmdsRight (w h neck ctrl : ℚ) (s : ℤ) : List PathCmd :=
  if s = 0 then [.line (w, h)]
  else
    [.line (w, h / 2 - neck),
     .curve (w, h / 2 - neck) (w + (s : ℚ) * ctrl, h / 2 - neck)
       (w + (s : ℚ) * ctrl, h / 2),
     .curve (w + (s : ℚ) * ctrl, h / 2 + neck) (w, h / 2 + neck)
       (w, h / 2 + neck),
     .line (w, h)]

/-- Bottom-edge commands (`src/app.js` lines 343-350); `y = h`,
`mid = w/2`, `sign = edgeBottom`. -/
def edgeCmdsBottom (w h neck ctrl : ℚ) (s : ℤ) : List PathCmd :=
  if s = 0 then [.line (0, h)]
  else
    [.line (w / 2 + neck, h),
     .curve (w / 2 + neck, h) (w / 2 + neck, h + (s : ℚ) * ctrl)
       (w / 2, h + (s : ℚ) * ctrl),
     .curve (w / 2 - neck, h + (s : ℚ) * ctrl) (w / 2 - neck, h)
       (w / 2 - neck, h),
     .line (0, h)]

/-- Left-edge commands (`src/app.js` lines 352-360); `x = 0`,
`mid = h/2`, `sign = edgeLeft`. A flat left edge is drawn by the closing
`Z` alone; a tabbed one returns explicitly to `(0,0)` before `Z`. -/
def edgeCmdsLeft (h neck ctrl : ℚ) (s : ℤ) : List PathCmd :=
  if s = 0 then [.close]
  else
    [.line (0, h / 2 + neck),
     .curve (0, h / 2 + neck) (-(s : ℚ) * ctrl, h / 2 + neck)
       (-(s : ℚ) * ctrl, h / 2),
     .curve (-(s : ℚ) * ctrl, h / 2 - neck) (0, h / 2 - neck)
       (0, h / 2 - neck),
     .line (0, 0), .close]

/-- `piecePath(w, h, edgeTop, edgeRight, edgeBottom, edgeLeft)` from
`src/app.js` lines 313-363: `tab = min(w,h)*0.23`, `neck = tab*0.4`,
`ctrl = tab*0.6`, then `M 0 0` followed by the four edge blocks. -/
def piecePath (w h : ℚ) (eT eR eB eL : ℤ) : List PathCmd :=
  let tab := min w h * 0.23
  let neck := tab * 0.4
  let ctrl := tab * 0.6
  PathCmd.move (0, 0) ::
    (edgeCmdsTop w neck ctrl eT ++ edgeCmdsRight w h neck ctrl eR ++
     edgeCmdsBottom w h neck ctrl eB ++ edgeCmdsLeft h neck ctrl eL)

/-- Trace a command list with standard SVG semantics: arguments are the
remaining commands, the current subpath start, and the current point;
`Z` returns the current point to the subpath start. -/
def traceCmds : List PathCmd → ℚ × ℚ → ℚ × ℚ → ℚ × ℚ
  | [], _, cur => cur
  | .move p :: rest, _, _ => traceCmds rest p p
  | .line p :: rest, s, _ => traceCmds rest s p
  | .curve _ _ p :: rest, s, _ => traceCmds rest s p
  | .close :: rest, s, _ => traceCmds rest s s

/-- The pen position after drawing a whole path from the origin. -/
def pathEndpoint (cmds : List PathCmd) : ℚ × ℚ := traceCmds cmds (0, 0) (0, 0)

/-- The endpoint a single command moves the pen to, if any. -/
def cmdEndpoint : PathCmd → Option (ℚ × ℚ)
  | .move p => some p
  | .line p => some p
  | .curve _ _ p => some p
  | .close => none

/-- The sequence of points a path visits (command endpoints, in order). -/
def pathVertices (cmds : List PathCmd) : List (ℚ × ℚ) :=
  cmds.filterMap cmdEndpoint

/-! ### List swap and shuffle lemmas -/

theorem cons_set_perm {α : Type _} :
    ∀ (t : List α) (m : ℕ) (hm : m < t.length) (b : α),
      t.get ⟨m, hm⟩ :: t.set m b ~ b :: t
  | c :: u, 0, _, b => List.Perm.swap b c u
  | c :: u, m + 1, hm, b => by
    have hm' : m < u.length := Nat.succ_lt_succ_iff.mp hm
    calc u.get ⟨m, hm'⟩ :: c :: u.set m b
        ~ c :: u.get ⟨m, hm'⟩ :: u.set m b := List.Perm.swap c _ _
      _ ~ c :: b :: u := (cons_set_perm u m hm' b).cons c
      _ ~ b :: c :: u := List.Perm.swap b c u

theorem set_set_perm {α : Type _} :
    ∀ (l : List α) (i j : ℕ) (hi : i < l.length) (hj : j < l.length),
      (l.set i (l.get ⟨j, hj⟩)).set j (l.get ⟨i, hi⟩) ~ l
  | a :: t, 0, 0, _, _ => by simp
  | a :: t, 0, m + 1, _, hj => by
    have hm : m < t.length := Nat.succ_lt_succ_iff.mp hj
    simpa using cons_set_perm t m hm a
  | a :: t, n + 1, 0, hi, _ => by
    have hn : n < t.length := Nat.succ_lt_succ_iff.mp hi
    simpa using cons_set_perm t n hn a
  | a :: t, n + 1, m + 1, hi, hj => by
    have hn : n < t.length := Nat.succ_lt_succ_iff.mp hi
    have hm : m < t.length := Nat.succ_lt_succ_iff.mp hj
    simpa using (set_set_perm t n m hn hm).cons a

theorem listSwap_perm {α : Type _} (l : List α) (i j : ℕ) :
    listSwap l i j ~ l := by
  unfold listSwap
  split
  · next h => exact set_set_perm l i j h.1 h.2
  · exact List.Perm.refl l

theorem fyAux_perm {α : Type _} (rng : ℕ → ℚ) :
    ∀ (i : ℕ) (l : List α) (k : ℕ), fyAux rng l i k ~ l
  | 0, _, _ => List.Perm.refl _
  | i + 1, l, k =>
    (fyAux_perm rng i _ (k + 1)).trans (listSwap_perm l (i + 1) _)

theorem fyShuffle_perm {α : Type _} (rng : ℕ → ℚ) (l : List α) :
    fyShuffle rng l ~ l :=
  fyAux_perm rng (l.length - 1) l 0

/-! ### Deduplication and hidden-set lemmas -/

theorem firstDedup_eq_self {l : List ℕ} (h : l.Nodup) : firstDedup l = l := by
  induction l with
  | nil => simp [firstDedup]
  | cons a t ih =>
    rw [firstDedup]
    have ha : a ∉ t := (List.nodup_cons.mp h).1
    have ht : t.Nodup := (List.nodup_cons.mp h).2
    have : t.filter (fun x => decide (x ≠ a)) = t := by
      apply List.filter_eq_self.mpr
      intro b hb
      simp only [decide_eq_true_eq]
      exact fun hba => ha (hba ▸ hb)
    rw [this, ih ht]

theorem hiddenOf_nodup (p : Project) : (hiddenOf p).Nodup :=
  (List.nodup_range _).filter _

theorem mem_hiddenOf {p : Project} {i : ℕ} :
    i ∈ hiddenOf p ↔ i < totalOf p ∧ i ∉ p.revealed := by
  simp [hiddenOf, List.mem_filter, List.mem_range]

theorem hiddenOf_length (p : Project) (hnd : p.revealed.Nodup)
    (hbd : ∀ i ∈ p.revealed, i < totalOf p) :
    (hiddenOf p).length + p.revealed.length = totalOf p := by
  have hperm := List.filter_append_perm
    (fun i => decide (i ∈ p.revealed)) (List.range (totalOf p))
  have hlen := hperm.length_eq
  rw [List.length_append, List.length_range] at hlen
  have hmemfil : (List.range (totalOf p)).filter
      (fun i => decide (i ∈ p.revealed)) ~ p.revealed := by
    rw [List.perm_ext_iff_of_nodup ((List.nodup_range _).filter _) hnd]
    intro a
    simp only [List.mem_filter, List.mem_range, decide_eq_true_eq]
    exact ⟨fun h => h.2, fun h => ⟨hbd a h, h⟩⟩
  have hfil : ((List.range (totalOf p)).filter
      (fun i => decide (i ∈ p.revealed))).length = p.revealed.length :=
    hmemfil.length_eq
  have hnot : (List.range (totalOf p)).filter
      (fun i => !decide (i ∈ p.revealed)) = hiddenOf p := by
    simp [hiddenOf]
  rw [hfil, hnot] at hlen
  omega

/-! ### Rounding lemmas -/

theorem jsRound_intCast (n : ℤ) : jsRound (n : ℚ) = n := by
  rw [jsRound]
  refine Int.floor_eq_iff.mpr ⟨by linarith, ?_⟩
  push_cast
  linarith

theorem jsRound_natCast (n : ℕ) : jsRound (n : ℚ) = n := by
  have := jsRound_intCast (n : ℤ)
  rwa [Int.cast_natCast] at this

theorem getD_map_range {α : Type _} (n : ℕ) (f : ℕ → α) (r : ℕ)
    (hr : r < n) (d : α) : ((List.range n).map f).getD r d = f r := by
  rw [List.getD_eq_getElem?_getD, List.getElem?_map, List.getElem?_range hr]
  rfl

theorem edge_index_lt {r c rows cols : ℕ} (hr : r < rows - 1) (hc : c < cols) :
    r * cols + c < (rows - 1) * cols :=
  calc r * cols + c < r * cols + cols := Nat.add_lt_add_left hc _
    _ = (r + 1) * cols := (Nat.succ_mul r cols).symm
    _ ≤ (rows - 1) * cols := Nat.mul_le_mul_right cols hr

/-- C4: for all rows, cols ≥ 2 and any randomness stream, `makeEdges`
returns `hEdges` with exactly rows−1 rows each of cols values and
`vEdges` with exactly rows rows each of cols−1 values, every value in
{+1, −1}; a drawn value strictly greater than 0.5 maps to +1 and
otherwise to −1 (slot `(r,c)` of `h` consumes draw `r*cols+c`, slot
`(r,c)` of `v` consumes draw `(rows−1)*cols + r*(cols−1) + c`); and the
result is determined by the draws the call consumes. -/
theorem makeEdges_spec (rows cols : ℕ) (rng rng' : ℕ → ℚ)
    (hrows : 2 ≤ rows) (hcols : 2 ≤ cols) :
    (makeEdges rows cols rng).1.length = rows - 1 ∧
    (∀ row ∈ (makeEdges rows cols rng).1, row.length = cols) ∧
    (makeEdges rows cols rng).2.length = rows ∧
    (∀ row ∈ (makeEdges rows cols rng).2, row.length = cols - 1) ∧
    (∀ row ∈ (makeEdges rows cols rng).1, ∀ x ∈ row, x = 1 ∨ x = -1) ∧
    (∀ row ∈ (makeEdges rows cols rng).2, ∀ x ∈ row, x = 1 ∨ x = -1) ∧
    (∀ r, r < rows - 1 → ∀ c, c < cols →
      (((makeEdges rows cols rng).1.getD r []).getD c 0 =
        if rng (r * cols + c) > 0.5 then 1 else -1)) ∧
    (∀ r, r < rows → ∀ c, c < cols - 1 →
      (((makeEdges rows cols rng).2.getD r []).getD c 0 =
        if rng ((rows - 1) * cols + r * (cols - 1) + c) > 0.5
        then 1 else -1)) ∧
    ((∀ k, k < (rows - 1) * cols + rows * (cols - 1) → rng k = rng' k) →
      makeEdges rows cols rng = makeEdges rows cols rng') := by
  refine ⟨by simp [makeEdges], ?_, by simp [makeEdges], ?_, ?_, ?_, ?_, ?_, ?_⟩
  · intro row hrow
    rcases List.mem_map.mp hrow with ⟨r, _, rfl⟩
    simp
  · intro row hrow
    rcases List.mem_map.mp hrow with ⟨r, _, rfl⟩
    simp
  · intro row hrow x hx
    rcases List.mem_map.mp hrow with ⟨r, _, rfl⟩
    rcases List.mem_map.mp hx with ⟨c, _, rfl⟩
    split
    · exact Or.inl rfl
    · exact Or.inr rfl
  · intro row hrow x hx
    rcases List.mem_map.mp hrow with ⟨r, _, rfl⟩
    rcases List.mem_map.mp hx with ⟨c, _, rfl⟩
    split
    · exact Or.inl rfl
    · exact Or.inr rfl
  · intro r hr c hc
    show (((List.range (rows - 1)).map _).getD r []).getD c 0 = _
    rw [getD_map_range _ _ _ hr, getD_map_range _ _ _ hc]
  · intro r hr c hc
    show (((List.range rows).map _).getD r []).getD c 0 = _
    rw [getD_map_range _ _ _ hr, getD_map_range _ _ _ hc]
  · intro hagree
    unfold makeEdges
    refine Prod.ext ?_ ?_
    · refine List.map_congr_left ?_
      intro r hr
      refine List.map_congr_left ?_
      intro c hc
      rw [List.mem_range] at hr hc
      rw [hagree (r * cols + c)
        (Nat.lt_of_lt_of_le (edge_index_lt hr hc) (Nat.le_add_right _ _))]
    · refine List.map_congr_left ?_
      intro r hr
      refine List.map_congr_left ?_
      intro c hc
      rw [List.mem_range] at hr hc
      have hlt : r * (cols - 1) + c < rows * (cols - 1) :=
        calc r * (cols - 1) + c < r * (cols - 1) + (cols - 1) :=
              Nat.add_lt_add_left hc _
          _ = (r + 1) * (cols - 1) := (Nat.succ_mul r (cols - 1)).symm
          _ ≤ rows * (cols - 1) := Nat.mul_le_mul_right (cols - 1) hr
      have hlt2 := Nat.add_lt_add_left hlt ((rows - 1) * cols)
      rw [← Nat.add_assoc] at hlt2
      rw [hagree ((rows - 1) * cols + r * (cols - 1) + c) hlt2]

theorem makeEdges_spec_witness :
    2 ≤ 2 ∧ (makeEdges 2 2 (fun _ => 0)).1.length = 2 - 1 :=
  ⟨le_refl 2,
   (makeEdges_spec 2 2 (fun _ => 0) (fun _ => 0) (le_refl 2) (le_refl 2)).1⟩

/-- C3: for every internal shared edge, the two adjacent cells derive
complementary signs from the single stored edge value — cell (r,c)'s
right sign is `vEdges[r][c]` and cell (r,c+1)'s left sign is
`-vEdges[r][c]`; cell (r,c)'s bottom sign is `hEdges[r][c]` and cell
(r+1,c)'s top sign is `-hEdges[r][c]` — while perimeter edges always get
sign 0. -/
theorem edge_sign_complement (hE vE : List (List ℤ)) (rows cols r c : ℕ) :
    (c + 1 < cols →
      pieceRightSign vE cols r c = (vE.getD r []).getD c 0 ∧
      pieceLeftSign vE r (c + 1) = -((vE.getD r []).getD c 0) ∧
      pieceRightSign vE cols r c = -(pieceLeftSign vE r (c + 1))) ∧
    (r + 1 < rows →
      pieceBottomSign hE rows r c = (hE.getD r []).getD c 0 ∧
      pieceTopSign hE (r + 1) c = -((hE.getD r []).getD c 0) ∧
      pieceBottomSign hE rows r c = -(pieceTopSign hE (r + 1) c)) ∧
    pieceTopSign hE 0 c = 0 ∧
    pieceLeftSign vE r 0 = 0 ∧
    pieceRightSign vE cols r (cols - 1) = 0 ∧
    pieceBottomSign hE rows (rows - 1) c = 0 := by
  refine ⟨?_, ?_, by simp [pieceTopSign], by simp [pieceLeftSign],
    by simp [pieceRightSign], by simp [pieceBottomSign]⟩
  · intro hc
    have h1 : c ≠ cols - 1 := by omega
    have h2 : c + 1 ≠ 0 := by omega
    refine ⟨by simp [pieceRightSign, h1], by simp [pieceLeftSign, h2],
      ?_⟩
    simp [pieceRightSign, pieceLeftSign, h1, h2]
  · intro hr
    have h1 : r ≠ rows - 1 := by omega
    have h2 : r + 1 ≠ 0 := by omega
    refine ⟨by simp [pieceBottomSign, h1], by simp [pieceTopSign, h2],
      ?_⟩
    simp [pieceBottomSign, pieceTopSign, h1, h2]

theorem edge_sign_complement_witness :
    0 + 1 < 2 ∧ pieceRightSign [[1]] 2 0 0 = -(pieceLeftSign [[1]] 0 1) :=
  ⟨by decide,
   ((edge_sign_complement [[1]] [[1]] 2 2 0 0).1 (by decide)).2.2⟩

/-! ### Slice and reveal lemmas -/

theorem jsSlice0_sublist {α : Type _} (l : List α) (e : ℤ) :
    (jsSlice0 l e).Sublist l := by
  unfold jsSlice0
  split <;> exact List.take_sublist _ _

theorem jsSlice0_length_nonneg {α : Type _} (l : List α) (e : ℤ)
    (h0 : 0 ≤ e) (hle : e ≤ (l.length : ℤ)) :
    ((jsSlice0 l e).length : ℤ) = e := by
  unfold jsSlice0
  rw [if_neg (not_lt.mpr h0), List.length_take]
  have h1 : e.toNat ≤ l.length := by omega
  rw [min_eq_left h1]
  omega

theorem jsSlice0_length_neg {α : Type _} (l : List α) (e : ℤ) (h : e < 0) :
    (jsSlice0 l e).length = ((l.length : ℤ) + e).toNat := by
  unfold jsSlice0
  rw [if_pos h, List.length_take]
  omega

theorem revealed_after (rng : ℕ → ℚ) (p : Project) (count : ℤ)
    (hnd : p.revealed.Nodup) :
    (reveal rng p count).1.revealed = p.revealed ++
      jsSlice0 (fyShuffle rng (hiddenOf p))
        (min count ((hiddenOf p).length : ℤ)) := by
  show firstDedup p.revealed ++ _ = _
  rw [firstDedup_eq_self hnd]

theorem pick_mem_hidden (rng : ℕ → ℚ) (p : Project) (e : ℤ) :
    ∀ i ∈ jsSlice0 (fyShuffle rng (hiddenOf p)) e, i ∈ hiddenOf p :=
  fun i hi => (fyShuffle_perm rng (hiddenOf p)).mem_iff.mp
    ((jsSlice0_sublist _ e).subset hi)

theorem pick_nodup (rng : ℕ → ℚ) (p : Project) (e : ℤ) :
    (jsSlice0 (fyShuffle rng (hiddenOf p)) e).Nodup :=
  ((fyShuffle_perm rng (hiddenOf p)).nodup_iff.mpr
    (hiddenOf_nodup p)).sublist (jsSlice0_sublist _ e)

theorem revealed_after_nodup (rng : ℕ → ℚ) (p : Project) (count : ℤ)
    (hnd : p.revealed.Nodup) :
    (reveal rng p count).1.revealed.Nodup := by
  rw [revealed_after rng p count hnd]
  refine List.Nodup.append hnd (pick_nodup rng p _) ?_
  intro a ha hb
  exact (mem_hiddenOf.mp (pick_mem_hidden rng p _ a hb)).2 ha

/-- C1: for every well-formed project and non-negative integer count,
`reveal` adds exactly min(count, #hidden) distinct previously-hidden cell
indices to `revealed` (all previously revealed indices remain revealed),
returns that number, and recomputes
`progress = round(100 × |revealed| / (rows×cols))`; `reveal(p, 0)` leaves
`revealed` and (derived) `progress` unchanged and returns 0, and
`count ≥ total − |revealed|` yields `|revealed| = total` and
`progress = 100`. -/
theorem reveal_spec (rng : ℕ → ℚ) (p : Project) (count : ℤ)
    (hnd : p.revealed.Nodup)
    (hbd : ∀ i ∈ p.revealed, i < totalOf p)
    (htotal : 0 < totalOf p) (hcount : 0 ≤ count) :
    (reveal rng p count).2 = min count ((hiddenOf p).length : ℤ) ∧
    ((hiddenOf p).length : ℤ) = (totalOf p : ℤ) - p.revealed.length ∧
    (reveal rng p count).1.revealed.Nodup ∧
    (∀ i ∈ p.revealed, i ∈ (reveal rng p count).1.revealed) ∧
    ((reveal rng p count).1.revealed.length : ℤ) =
      p.revealed.length + (reveal rng p count).2 ∧
    (∀ i ∈ (reveal rng p count).1.revealed,
      i ∈ p.revealed ∨ (i ∉ p.revealed ∧ i < totalOf p)) ∧
    (reveal rng p count).1.progress =
      some ((jsRound (100 * ((reveal rng p count).1.revealed.length : ℚ) /
        (totalOf p : ℚ)) : ℤ) : ℚ) ∧
    (count = 0 → (reveal rng p count).1.revealed = p.revealed ∧
      (reveal rng p count).2 = 0 ∧
      (p.progress = some ((jsRound (100 * (p.revealed.length : ℚ) /
          (totalOf p : ℚ)) : ℤ) : ℚ) →
        (reveal rng p count).1.progress = p.progress)) ∧
    ((totalOf p : ℤ) - p.revealed.length ≤ count →
      (reveal rng p count).1.revealed.length = totalOf p ∧
      (reveal rng p count).1.progress = some 100) := by
  have hhidlen : ((hiddenOf p).length : ℤ) =
      (totalOf p : ℤ) - p.revealed.length := by
    have := hiddenOf_length p hnd hbd
    omega
  have hmin0 : 0 ≤ min count ((hiddenOf p).length : ℤ) :=
    le_min hcount (by positivity)
  have hminle : min count ((hiddenOf p).length : ℤ) ≤
      ((hiddenOf p).length : ℤ) := min_le_right _ _
  have hrev := revealed_after rng p count hnd
  have hshuflen : (fyShuffle rng (hiddenOf p)).length = (hiddenOf p).length :=
    (fyShuffle_perm rng (hiddenOf p)).length_eq
  have hpicklen : ((jsSlice0 (fyShuffle rng (hiddenOf p))
      (min count ((hiddenOf p).length : ℤ))).length : ℤ) =
      min count ((hiddenOf p).length : ℤ) := by
    rw [jsSlice0_length_nonneg _ _ hmin0 (by rw [hshuflen]; exact hminle)]
  have hlen : ((reveal rng p count).1.revealed.length : ℤ) =
      p.revealed.length + min count ((hiddenOf p).length : ℤ) := by
    rw [hrev, List.length_append]
    push_cast
    rw [hpicklen]
  have hsnd : (reveal rng p count).2 =
      min count ((hiddenOf p).length : ℤ) := rfl
  have hprogchar : (reveal rng p count).1.progress =
      some ((jsRound (((reveal rng p count).1.revealed.length : ℚ) /
        (totalOf p : ℚ) * 100) : ℤ) : ℚ) := rfl
  have hargswap : ∀ n : ℕ, ((n : ℚ) / (totalOf p : ℚ) * 100) =
      (100 * (n : ℚ) / (totalOf p : ℚ)) := by
    intro n
    ring
  refine ⟨hsnd, hhidlen, revealed_after_nodup rng p count hnd, ?_, ?_, ?_,
    ?_, ?_, ?_⟩
  · intro i hi
    rw [hrev]
    exact List.mem_append_left _ hi
  · rw [hsnd]
    exact hlen
  · intro i hi
    rw [hrev] at hi
    rcases List.mem_append.mp hi with h | h
    · exact Or.inl h
    · have := mem_hiddenOf.mp (pick_mem_hidden rng p _ i h)
      exact Or.inr ⟨this.2, this.1⟩
  · rw [hprogchar, hargswap]
  · intro hc0
    subst hc0
    have hz : min (0 : ℤ) ((hiddenOf p).length : ℤ) = 0 :=
      min_eq_left (by positivity)
    have hpick0 : jsSlice0 (fyShuffle rng (hiddenOf p))
        (min (0 : ℤ) ((hiddenOf p).length : ℤ)) = [] := by
      rw [hz]
      unfold jsSlice0
      rw [if_neg (by omega)]
      simp
    have hreveq : (reveal rng p 0).1.revealed = p.revealed := by
      rw [hrev, hpick0, List.append_nil]
    refine ⟨hreveq, by rw [hsnd, hz], ?_⟩
    intro hp
    rw [hprogchar, hreveq, hargswap, ← hp]
  · intro hge
    have hmineq : min count ((hiddenOf p).length : ℤ) =
        ((hiddenOf p).length : ℤ) :=
      min_eq_right (by omega)
    have hlentot : ((reveal rng p count).1.revealed.length : ℤ) =
        (totalOf p : ℤ) := by
      rw [hlen, hmineq]
      omega
    have hlentot' : (reveal rng p count).1.revealed.length = totalOf p := by
      omega
    refine ⟨hlentot', ?_⟩
    rw [hprogchar, hlentot']
    have htne : (totalOf p : ℚ) ≠ 0 := by
      exact_mod_cast Nat.pos_iff_ne_zero.mp htotal
    have harg : ((totalOf p : ℚ)) / (totalOf p : ℚ) * 100 = 100 := by
      rw [div_self htne]
      ring
    rw [harg]
    have h100 : jsRound (100 : ℚ) = (100 : ℤ) := by
      have := jsRound_intCast 100
      norm_num at this
      exact this
    rw [h100]
    norm_num

theorem reveal_spec_witness :
    (([] : List ℕ)).Nodup ∧ 0 < totalOf ⟨2, 2, [], [], [], some 0⟩ ∧
    (0 : ℤ) ≤ 3 ∧
    (reveal (fun _ => 0) ⟨2, 2, [], [], [], some 0⟩ 3).2 =
      min 3 ((hiddenOf ⟨2, 2, [], [], [], some 0⟩).length : ℤ) :=
  ⟨List.nodup_nil, by decide, by decide,
   (reveal_spec (fun _ => 0) ⟨2, 2, [], [], [], some 0⟩ 3 List.nodup_nil
     (by intro i hi; simp at hi) (by decide) (by decide)).1⟩

/-! ### Migration lemmas -/

theorem migrate_of_total_100 (rng : ℕ → ℚ) (p : Project)
    (h : p.rows * p.cols = 100) : migrateToFixedGrid rng p = p := by
  simp [migrateToFixedGrid, h]

theorem migrate_rows_cols (rng : ℕ → ℚ) (p : Project)
    (h : ¬p.rows * p.cols = 100) :
    (migrateToFixedGrid rng p).rows = 10 ∧
    (migrateToFixedGrid rng p).cols = 10 := by
  constructor <;> simp [migrateToFixedGrid, h]

theorem migrate_revealed_nodup_aux (rng : ℕ → ℚ) (p : Project)
    (h : ¬p.rows * p.cols = 100) :
    (migrateToFixedGrid rng p).revealed.Nodup ∧
    (∀ i ∈ (migrateToFixedGrid rng p).revealed, i < 100) := by
  have hrev : (migrateToFixedGrid rng p).revealed =
      jsSlice0 (fyShuffle (fun k => rng (180 + k)) (List.range 100))
        (jsRound
          ((match p.progress with
            | some pr => clampQ pr 0 100
            | none => (jsRound ((p.revealed.length : ℚ) /
                ((if p.rows * p.cols > 0 then p.rows * p.cols else 100) : ℕ) *
                100) : ℚ)) / 100 * 100)) := by
    simp only [migrateToFixedGrid, if_neg h]
  have hperm := fyShuffle_perm (fun k => rng (180 + k)) (List.range 100)
  have hnodup : (fyShuffle (fun k => rng (180 + k))
      (List.range 100)).Nodup :=
    hperm.nodup_iff.mpr (List.nodup_range 100)
  constructor
  · rw [hrev]
    exact hnodup.sublist (jsSlice0_sublist _ _)
  · intro i hi
    rw [hrev] at hi
    have : i ∈ List.range 100 :=
      hperm.mem_iff.mp ((jsSlice0_sublist _ _).subset hi)
    exact List.mem_range.mp this

/-- C8: the operations that mutate `revealed` (`reveal` and grid
migration) preserve the invariant that `revealed` has no duplicates and
every index is < rows×cols; in particular `reveal` never selects an
index already in `revealed` and never selects an index ≥ total. -/
theorem revealed_invariant (rng rng2 : ℕ → ℚ) (p : Project) (count : ℤ)
    (hnd : p.revealed.Nodup) (hbd : ∀ i ∈ p.revealed, i < totalOf p) :
    (reveal rng p count).1.revealed.Nodup ∧
    (∀ i ∈ (reveal rng p count).1.revealed,
      i < (reveal rng p count).1.rows * (reveal rng p count).1.cols) ∧
    (∀ i ∈ jsSlice0 (fyShuffle rng (hiddenOf p)) (reveal rng p count).2,
      i ∉ p.revealed ∧ i < totalOf p) ∧
    (migrateToFixedGrid rng2 p).revealed.Nodup ∧
    (∀ i ∈ (migrateToFixedGrid rng2 p).revealed,
      i < (migrateToFixedGrid rng2 p).rows *
        (migrateToFixedGrid rng2 p).cols) := by
  have hrows : (reveal rng p count).1.rows = p.rows := rfl
  have hcols : (reveal rng p count).1.cols = p.cols := rfl
  have hpick : ∀ i ∈ jsSlice0 (fyShuffle rng (hiddenOf p))
      (reveal rng p count).2, i ∉ p.revealed ∧ i < totalOf p := by
    intro i hi
    have := mem_hiddenOf.mp (pick_mem_hidden rng p _ i hi)
    exact ⟨this.2, this.1⟩
  refine ⟨revealed_after_nodup rng p count hnd, ?_, hpick, ?_, ?_⟩
  · intro i hi
    rw [hrows, hcols]
    rw [revealed_after rng p count hnd] at hi
    rcases List.mem_append.mp hi with hmem | hmem
    · exact hbd i hmem
    · exact (hpick i hmem).2
  · by_cases h : p.rows * p.cols = 100
    · rw [migrate_of_total_100 rng2 p h]
      exact hnd
    · exact (migrate_revealed_nodup_aux rng2 p h).1
  · by_cases h : p.rows * p.cols = 100
    · rw [migrate_of_total_100 rng2 p h]
      exact hbd
    · intro i hi
      rw [(migrate_rows_cols rng2 p h).1, (migrate_rows_cols rng2 p h).2]
      exact (migrate_revealed_nodup_aux rng2 p h).2 i hi

theorem revealed_invariant_witness :
    ([0] : List ℕ).Nodup ∧
    (∀ i ∈ ([0] : List ℕ), i < totalOf ⟨2, 2, [], [], [0], some 25⟩) ∧
    (reveal (fun _ => 0) ⟨2, 2, [], [], [0], some 25⟩ 2).1.revealed.Nodup :=
  ⟨by decide, by decide,
   (revealed_invariant (fun _ => 0) (fun _ => 0)
     ⟨2, 2, [], [], [0], some 25⟩ 2 (by decide) (by decide)).1⟩

/-- C9 (counterexample): for the 2×2 project with nothing revealed and a
constant-zero random stream, `reveal` with count −1 returns −1 — a
negative value — while actually revealing 3 cells (JS `slice(0, -1)`
drops only the last element of the shuffled hidden list), so the claim
that reveal clamps every invalid count and returns the non-negative
number actually revealed is false. -/
theorem reveal_negative_counterexample :
    (reveal (fun _ => 0) ⟨2, 2, [], [], [], some 0⟩ (-1)).2 = -1 ∧
    ¬(0 ≤ (reveal (fun _ => 0) ⟨2, 2, [], [], [], some 0⟩ (-1)).2) ∧
    (reveal (fun _ => 0) ⟨2, 2, [], [], [], some 0⟩ (-1)).1.revealed =
      [1, 2, 3] := by
  have hh : hiddenOf ⟨2, 2, [], [], [], some 0⟩ = [0, 1, 2, 3] := by decide
  have hsh : fyShuffle (fun _ => (0 : ℚ)) [0, 1, 2, 3] = [1, 2, 3, 0] := by
    simp only [fyShuffle, fyAux, listSwap]
    norm_num [List.get]
  have hrev : (reveal (fun _ => 0) ⟨2, 2, [], [], [], some 0⟩
      (-1)).1.revealed =
      firstDedup [] ++ jsSlice0
        (fyShuffle (fun _ => 0) (hiddenOf ⟨2, 2, [], [], [], some 0⟩))
        (min (-1) ((hiddenOf ⟨2, 2, [], [], [], some 0⟩).length : ℤ)) := rfl
  have hsnd : (reveal (fun _ => 0) ⟨2, 2, [], [], [], some 0⟩ (-1)).2 =
      min (-1) ((hiddenOf ⟨2, 2, [], [], [], some 0⟩).length : ℤ) := rfl
  refine ⟨?_, ?_, ?_⟩
  · rw [hsnd, hh]
    decide
  · rw [hsnd, hh]
    decide
  · rw [hrev, hh, hsh]
    simp [firstDedup, jsSlice0]

/-- C9 (amended): an invalid (negative) reveal count raises no error and
still reveals only previously-hidden cells while keeping all previously
revealed ones, but it is NOT clamped to 0: `reveal` returns the negative
count itself (not the number actually revealed), and JS
`slice(0, count)` semantics reveal `max(|hidden| + count, 0)` cells. -/
theorem reveal_negative_spec (rng : ℕ → ℚ) (p : Project) (count : ℤ)
    (hnd : p.revealed.Nodup) (hneg : count < 0) :
    (reveal rng p count).2 = count ∧
    ((reveal rng p count).1.revealed.length : ℤ) =
      p.revealed.length + max (((hiddenOf p).length : ℤ) + count) 0 ∧
    (reveal rng p count).1.revealed.Nodup ∧
    (∀ i ∈ p.revealed, i ∈ (reveal rng p count).1.revealed) ∧
    (∀ i ∈ (reveal rng p count).1.revealed,
      i ∈ p.revealed ∨ (i ∉ p.revealed ∧ i < totalOf p)) := by
  have hmin : min count ((hiddenOf p).length : ℤ) = count :=
    min_eq_left (le_trans (le_of_lt hneg) (by positivity))
  have hsnd : (reveal rng p count).2 =
      min count ((hiddenOf p).length : ℤ) := rfl
  have hrev := revealed_after rng p count hnd
  have hshuflen : (fyShuffle rng (hiddenOf p)).length =
      (hiddenOf p).length :=
    (fyShuffle_perm rng (hiddenOf p)).length_eq
  refine ⟨by rw [hsnd, hmin], ?_, revealed_after_nodup rng p count hnd,
    ?_, ?_⟩
  · rw [hrev, List.length_append, hmin]
    rw [jsSlice0_length_neg _ _ (by omega), hshuflen]
    push_cast [Int.toNat_eq_max]
    ring
  · intro i hi
    rw [hrev]
    exact List.mem_append_left _ hi
  · intro i hi
    rw [hrev] at hi
    rcases List.mem_append.mp hi with h | h
    · exact Or.inl h
    · have := mem_hiddenOf.mp (pick_mem_hidden rng p _ i h)
      exact Or.inr ⟨this.2, this.1⟩

theorem reveal_negative_spec_witness :
    (([] : List ℕ)).Nodup ∧ ((-1 : ℤ) < 0) ∧
    (reveal (fun _ => 0) ⟨2, 2, [], [], [], some 0⟩ (-1)).2 = -1 :=
  ⟨List.nodup_nil, by decide,
   (reveal_negative_spec (fun _ => 0) ⟨2, 2, [], [], [], some 0⟩ (-1)
     List.nodup_nil (by decide)).1⟩

/-- C6: when a timed session completes with configured percentage
`sessionPct` (in [0,100]), the caller computes
`targetPieces = round(clamp(currentProgressPct + sessionPct, 0, 100) ×
total / 100)` and invokes `reveal` with
`count = max(0, targetPieces − currentRevealedCount)`. -/
theorem onTimerComplete_spec (rng : ℕ → ℚ) (s : ℚ) (p : Project)
    (h0 : 0 ≤ s) (h100 : s ≤ 100) :
    onTimerCompleteNeed s p =
      max 0 (jsRound (clampQ (p.progress.getD 0 + s) 0 100 *
        ((p.rows * p.cols : ℕ) : ℚ) / 100) - (p.revealed.length : ℤ)) ∧
    onTimerComplete rng s p =
      reveal rng p
        (max 0 (jsRound (clampQ (p.progress.getD 0 + s) 0 100 *
          ((p.rows * p.cols : ℕ) : ℚ) / 100) - (p.revealed.length : ℤ))) := by
  have hc : clampQ s 0 100 = s := by
    unfold clampQ
    rw [max_eq_right h0, min_eq_right h100]
  constructor
  · unfold onTimerCompleteNeed
    rw [hc]
  · unfold onTimerComplete onTimerCompleteNeed
    rw [hc]

theorem onTimerComplete_spec_witness :
    (0 : ℚ) ≤ 10 ∧ (10 : ℚ) ≤ 100 ∧
    (onTimerCompleteNeed 10 ⟨10, 10, [], [], List.range 45, some 45⟩ =
      max 0 (jsRound (clampQ ((some (45 : ℚ)).getD 0 + 10) 0 100 *
        ((10 * 10 : ℕ) : ℚ) / 100) - ((List.range 45).length : ℤ))) ∧
    onTimerCompleteNeed 10 ⟨10, 10, [], [], List.range 45, some 45⟩ = 10 :=
  ⟨by norm_num, by norm_num,
   (onTimerComplete_spec (fun _ => 0) 10
     ⟨10, 10, [], [], List.range 45, some 45⟩ (by norm_num)
     (by norm_num)).1,
   by norm_num [onTimerCompleteNeed, clampQ, jsRound]⟩

theorem jsRound_nonneg {q : ℚ} (h : 0 ≤ q) : 0 ≤ jsRound q := by
  rw [jsRound]
  refine Int.le_floor.mpr ?_
  push_cast
  linarith

theorem jsRound_le_100 {q : ℚ} (h : q ≤ 100) : jsRound q ≤ 100 := by
  rw [jsRound]
  have : ⌊q + 1/2⌋ < 101 := by
    refine Int.floor_lt.mpr ?_
    push_cast
    linarith
  omega

theorem migrate_branch (rng : ℕ → ℚ) (p : Project)
    (h100 : ¬p.rows * p.cols = 100) (π : ℚ)
    (hsome : ∀ pr, p.progress = some pr → clampQ pr 0 100 = π)
    (hnone : p.progress = none →
      ((jsRound ((p.revealed.length : ℚ) /
        ((if p.rows * p.cols > 0 then p.rows * p.cols else 100 : ℕ) : ℚ) *
        100) : ℤ) : ℚ) = π)
    (h0 : 0 ≤ π) (hle : π ≤ 100) :
    ((migrateToFixedGrid rng p).revealed.length : ℤ) = jsRound π ∧
    (migrateToFixedGrid rng p).progress = some ((jsRound π : ℤ) : ℚ) := by
  have hidxlen : (fyShuffle (fun k => rng (180 + k))
      (List.range 100)).length = 100 := by
    rw [(fyShuffle_perm _ _).length_eq, List.length_range]
  have h0' : 0 ≤ jsRound π := jsRound_nonneg h0
  have hle' : jsRound π ≤ 100 := jsRound_le_100 hle
  have hdiv : π / 100 * 100 = π := div_mul_cancel₀ _ (by norm_num)
  have hslice : ((jsSlice0 (fyShuffle (fun k => rng (180 + k))
      (List.range 100)) (jsRound π)).length : ℤ) = jsRound π := by
    refine jsSlice0_length_nonneg _ _ h0' ?_
    rw [hidxlen]
    exact_mod_cast hle'
  have hm : migrateToFixedGrid rng p =
      { rows := 10, cols := 10, hEdges := (makeEdges 10 10 rng).1,
        vEdges := (makeEdges 10 10 rng).2,
        revealed := jsSlice0 (fyShuffle (fun k => rng (180 + k))
          (List.range 100)) (jsRound π),
        progress := some ((jsRound (((jsSlice0 (fyShuffle
          (fun k => rng (180 + k)) (List.range 100))
          (jsRound π)).length : ℚ) / 100 * 100) : ℤ) : ℚ) } := by
    rcases hp : p.progress with _ | q
    · have hπ := hnone hp
      simp only [migrateToFixedGrid, hp, if_neg h100]
      rw [hπ, hdiv]
    · have hπ := hsome q hp
      simp only [migrateToFixedGrid, hp, if_neg h100]
      rw [hπ, hdiv]
  constructor
  · rw [hm]
    exact hslice
  · rw [hm]
    show some _ = _
    have hl : ((jsSlice0 (fyShuffle (fun k => rng (180 + k))
        (List.range 100)) (jsRound π)).length : ℚ) / 100 * 100 =
        ((jsSlice0 (fyShuffle (fun k => rng (180 + k))
        (List.range 100)) (jsRound π)).length : ℚ) :=
      div_mul_cancel₀ _ (by norm_num)
    rw [hl, jsRound_natCast]
    rw [hslice]

theorem migrate_edges (rng : ℕ → ℚ) (p : Project)
    (h : ¬p.rows * p.cols = 100) :
    (migrateToFixedGrid rng p).hEdges = (makeEdges 10 10 rng).1 ∧
    (migrateToFixedGrid rng p).vEdges = (makeEdges 10 10 rng).2 := by
  constructor <;> simp [migrateToFixedGrid, h]

/-- C2: grid migration, applied to any project with rows×cols ≠ 100
(positive total, revealed not exceeding total, numeric progress within
0–100), sets rows = cols = 10, regenerates edges, re-selects as revealed
a subset of 0..99 of size round(pct) — pct being the progress field if
numeric and otherwise round(100 × |revealed| / (rows×cols)) — so the
resulting progress equals the prior (rounded) completion percentage; and
migration is idempotent: a second run against an already-100-cell
project changes nothing. -/
theorem migrate_spec (rng : ℕ → ℚ) (p : Project)
    (h100 : p.rows * p.cols ≠ 100) (htot : 0 < p.rows * p.cols)
    (hrevlen : p.revealed.length ≤ p.rows * p.cols)
    (hprog : ∀ q, p.progress = some q → 0 ≤ q ∧ q ≤ 100) :
    (migrateToFixedGrid rng p).rows = 10 ∧
    (migrateToFixedGrid rng p).cols = 10 ∧
    (migrateToFixedGrid rng p).hEdges = (makeEdges 10 10 rng).1 ∧
    (migrateToFixedGrid rng p).vEdges = (makeEdges 10 10 rng).2 ∧
    (migrateToFixedGrid rng p).revealed.Nodup ∧
    (∀ i ∈ (migrateToFixedGrid rng p).revealed, i < 100) ∧
    (∀ q, p.progress = some q →
      ((migrateToFixedGrid rng p).revealed.length : ℤ) = jsRound q ∧
      (migrateToFixedGrid rng p).progress = some ((jsRound q : ℤ) : ℚ)) ∧
    (p.progress = none →
      ((migrateToFixedGrid rng p).revealed.length : ℤ) =
        jsRound ((jsRound (100 * (p.revealed.length : ℚ) /
          ((p.rows * p.cols : ℕ) : ℚ)) : ℤ) : ℚ) ∧
      (migrateToFixedGrid rng p).progress =
        some ((jsRound ((jsRound (100 * (p.revealed.length : ℚ) /
          ((p.rows * p.cols : ℕ) : ℚ)) : ℤ) : ℚ) : ℤ) : ℚ)) ∧
    (∀ rng2, migrateToFixedGrid rng2 (migrateToFixedGrid rng p) =
      migrateToFixedGrid rng p) ∧
    (∀ q : Project, q.rows * q.cols = 100 →
      migrateToFixedGrid rng q = q) := by
  have htq : (0 : ℚ) < ((p.rows * p.cols : ℕ) : ℚ) := by
    exact_mod_cast htot
  refine ⟨(migrate_rows_cols rng p h100).1, (migrate_rows_cols rng p h100).2,
    (migrate_edges rng p h100).1, (migrate_edges rng p h100).2,
    (migrate_revealed_nodup_aux rng p h100).1,
    (migrate_revealed_nodup_aux rng p h100).2, ?_, ?_, ?_,
    fun q hq => migrate_of_total_100 rng q hq⟩
  · intro q hq
    obtain ⟨hq0, hq100⟩ := hprog q hq
    refine migrate_branch rng p h100 q ?_ ?_ hq0 hq100
    · intro pr hpr
      rw [hq] at hpr
      injection hpr with h
      subst h
      unfold clampQ
      rw [max_eq_right hq0, min_eq_right hq100]
    · intro hn
      rw [hq] at hn
      exact absurd hn (by simp)
  · intro hn
    have harg0 : 0 ≤ 100 * (p.revealed.length : ℚ) /
        ((p.rows * p.cols : ℕ) : ℚ) := by positivity
    have harg1 : 100 * (p.revealed.length : ℚ) /
        ((p.rows * p.cols : ℕ) : ℚ) ≤ 100 := by
      rw [div_le_iff htq]
      have : (p.revealed.length : ℚ) ≤ ((p.rows * p.cols : ℕ) : ℚ) := by
        exact_mod_cast hrevlen
      nlinarith
    have hA0 : (0 : ℚ) ≤ ((jsRound (100 * (p.revealed.length : ℚ) /
        ((p.rows * p.cols : ℕ) : ℚ)) : ℤ) : ℚ) := by
      exact_mod_cast jsRound_nonneg harg0
    have hA100 : ((jsRound (100 * (p.revealed.length : ℚ) /
        ((p.rows * p.cols : ℕ) : ℚ)) : ℤ) : ℚ) ≤ 100 := by
      exact_mod_cast jsRound_le_100 harg1
    refine migrate_branch rng p h100 _ ?_ ?_ hA0 hA100
    · intro pr hpr
      rw [hn] at hpr
      exact absurd hpr (by simp)
    · intro _
      rw [if_pos htot]
      have : (p.revealed.length : ℚ) / ((p.rows * p.cols : ℕ) : ℚ) * 100 =
          100 * (p.revealed.length : ℚ) / ((p.rows * p.cols : ℕ) : ℚ) := by
        ring
      rw [this]
  · intro rng2
    apply migrate_of_total_100
    rw [(migrate_rows_cols rng p h100).1, (migrate_rows_cols rng p h100).2]

theorem migrate_spec_witness :
    (5 * 5 ≠ 100) ∧ (0 < 5 * 5) ∧ (List.range 10).length ≤ 5 * 5 ∧
    ((migrateToFixedGrid (fun _ => 0)
        ⟨5, 5, [], [], List.range 10, none⟩).revealed.length : ℤ) =
      jsRound ((jsRound (100 * ((List.range 10).length : ℚ) /
        ((5 * 5 : ℕ) : ℚ)) : ℤ) : ℚ) ∧
    jsRound ((jsRound (100 * ((List.range 10).length : ℚ) /
      ((5 * 5 : ℕ) : ℚ)) : ℤ) : ℚ) = 40 :=
  ⟨by decide, by decide, by simp,
   ((migrate_spec (fun _ => 0) ⟨5, 5, [], [], List.range 10, none⟩
     (by decide) (by decide) (by simp)
     (fun q hq => by exact absurd hq (by simp))).2.2.2.2.2.2.2.1 rfl).1,
   by norm_num [jsRound]⟩

theorem jsSlice0_length_nonneg' {α : Type _} (l : List α) (e : ℤ)
    (h0 : 0 ≤ e) : ((jsSlice0 l e).length : ℤ) = min e (l.length : ℤ) := by
  unfold jsSlice0
  rw [if_neg (not_lt.mpr h0), List.length_take]
  omega

theorem migrate_branch_min (rng : ℕ → ℚ) (p : Project)
    (h100 : ¬p.rows * p.cols = 100) (π : ℚ)
    (hsome : ∀ pr, p.progress = some pr → clampQ pr 0 100 = π)
    (hnone : p.progress = none →
      ((jsRound ((p.revealed.length : ℚ) /
        ((if p.rows * p.cols > 0 then p.rows * p.cols else 100 : ℕ) : ℚ) *
        100) : ℤ) : ℚ) = π)
    (h0 : 0 ≤ π) :
    ((migrateToFixedGrid rng p).revealed.length : ℤ) =
      min (jsRound π) 100 ∧
    (migrateToFixedGrid rng p).progress =
      some ((min (jsRound π) 100 : ℤ) : ℚ) := by
  have hidxlen : (fyShuffle (fun k => rng (180 + k))
      (List.range 100)).length = 100 := by
    rw [(fyShuffle_perm _ _).length_eq, List.length_range]
  have h0' : 0 ≤ jsRound π := jsRound_nonneg h0
  have hdiv : π / 100 * 100 = π := div_mul_cancel₀ _ (by norm_num)
  have hslice : ((jsSlice0 (fyShuffle (fun k => rng (180 + k))
      (List.range 100)) (jsRound π)).length : ℤ) = min (jsRound π) 100 := by
    rw [jsSlice0_length_nonneg' _ _ h0', hidxlen]
    norm_num
  have hm : migrateToFixedGrid rng p =
      { rows := 10, cols := 10, hEdges := (makeEdges 10 10 rng).1,
        vEdges := (makeEdges 10 10 rng).2,
        revealed := jsSlice0 (fyShuffle (fun k => rng (180 + k))
          (List.range 100)) (jsRound π),
        progress := some ((jsRound (((jsSlice0 (fyShuffle
          (fun k => rng (180 + k)) (List.range 100))
          (jsRound π)).length : ℚ) / 100 * 100) : ℤ) : ℚ) } := by
    rcases hp : p.progress with _ | q
    · have hπ := hnone hp
      simp only [migrateToFixedGrid, hp, if_neg h100]
      rw [hπ, hdiv]
    · have hπ := hsome q hp
      simp only [migrateToFixedGrid, hp, if_neg h100]
      rw [hπ, hdiv]
  constructor
  · rw [hm]
    exact hslice
  · rw [hm]
    show some _ = _
    have hl : ((jsSlice0 (fyShuffle (fun k => rng (180 + k))
        (List.range 100)) (jsRound π)).length : ℚ) / 100 * 100 =
        ((jsSlice0 (fyShuffle (fun k => rng (180 + k))
        (List.range 100)) (jsRound π)).length : ℚ) :=
      div_mul_cancel₀ _ (by norm_num)
    rw [hl, jsRound_natCast, hslice]

/-- C10: grid migration is total on degenerate inputs — for a project
with rows×cols = 0 and non-numeric progress, the prior-completion
computation substitutes 100 as the prior total instead of dividing by
zero, so the computed percentage is a well-defined number and the
project is still normalized to rows = cols = 10 with a well-formed
revealed set. -/
theorem migrate_degenerate (rng : ℕ → ℚ) (p : Project)
    (h0 : p.rows * p.cols = 0) (hp : p.progress = none) :
    (migrateToFixedGrid rng p).rows = 10 ∧
    (migrateToFixedGrid rng p).cols = 10 ∧
    (migrateToFixedGrid rng p).revealed.Nodup ∧
    (∀ i ∈ (migrateToFixedGrid rng p).revealed, i < 100) ∧
    ((migrateToFixedGrid rng p).revealed.length : ℤ) =
      min (jsRound ((jsRound ((p.revealed.length : ℚ) / 100 * 100) :
        ℤ) : ℚ)) 100 ∧
    (migrateToFixedGrid rng p).progress =
      some ((min (jsRound ((jsRound ((p.revealed.length : ℚ) / 100 *
        100) : ℤ) : ℚ)) 100 : ℤ) : ℚ) := by
  have h100 : ¬p.rows * p.cols = 100 := by omega
  have harg0 : 0 ≤ (p.revealed.length : ℚ) / 100 * 100 := by positivity
  have hπ0 : (0 : ℚ) ≤ ((jsRound ((p.revealed.length : ℚ) / 100 * 100) :
      ℤ) : ℚ) := by
    exact_mod_cast jsRound_nonneg harg0
  have hbr := migrate_branch_min rng p h100
    ((jsRound ((p.revealed.length : ℚ) / 100 * 100) : ℤ) : ℚ)
    (fun pr hpr => absurd (hp ▸ hpr) (by simp))
    (fun _ => by
      rw [if_neg (by omega)]
      norm_num)
    hπ0
  exact ⟨(migrate_rows_cols rng p h100).1, (migrate_rows_cols rng p h100).2,
    (migrate_revealed_nodup_aux rng p h100).1,
    (migrate_revealed_nodup_aux rng p h100).2, hbr.1, hbr.2⟩

theorem migrate_degenerate_witness :
    (0 * 5 = 0) ∧
    ((migrateToFixedGrid (fun _ => 0)
        ⟨0, 5, [], [], [0, 1, 2], none⟩).revealed.length : ℤ) =
      min (jsRound ((jsRound ((([0, 1, 2] : List ℕ).length : ℚ) / 100 *
        100) : ℤ) : ℚ)) 100 ∧
    min (jsRound ((jsRound ((([0, 1, 2] : List ℕ).length : ℚ) / 100 *
      100) : ℤ) : ℚ)) 100 = 3 :=
  ⟨rfl,
   (migrate_degenerate (fun _ => 0) ⟨0, 5, [], [], [0, 1, 2], none⟩
     rfl rfl).2.2.2.2.1,
   by norm_num [jsRound]⟩

/-- C5 (counterexample): for a 100×100 container the layout yields a
200×125 stage — the 200px minimum usable size makes the stage width 200,
which exceeds the 100px-wide container, so the claim that for every
container size the stage never exceeds the container is false. -/
theorem computeLayout_counterexample :
    computeLayout 100 100 (some (8 / 5)) = (200, 125) ∧
    ¬((computeLayout 100 100 (some (8 / 5))).1 ≤ 100) := by
  constructor
  · norm_num [computeLayout]
  · norm_num [computeLayout]

/-- C5 (amended): for containers of width and height at least 224 (so
that the usable area, container minus the 24px margin, dominates the
200px floor) and a known positive aspect ratio, the stage fits within
the usable area — hence within the container — and preserves the aspect
ratio up to the 1-pixel integer flooring (in the width-limited branch
the height is within 1px below width/aspect, in the height-limited
branch the width is within 1px below height×aspect); the default aspect
16/10 applies when the aspect is unknown; container 1000×500 with
aspect 2.0 yields stage 952×476. -/
theorem computeLayout_fits (cw ch a : ℚ) (hcw : 224 ≤ cw) (hch : 224 ≤ ch)
    (ha : 0 < a) :
    ((computeLayout cw ch (some a)).1 : ℚ) ≤ cw - 24 ∧
    ((computeLayout cw ch (some a)).2 : ℚ) ≤ ch - 24 ∧
    ((((computeLayout cw ch (some a)).1 : ℚ) / a - 1 <
        ((computeLayout cw ch (some a)).2 : ℚ) ∧
      ((computeLayout cw ch (some a)).2 : ℚ) ≤
        ((computeLayout cw ch (some a)).1 : ℚ) / a) ∨
     (((computeLayout cw ch (some a)).2 : ℚ) * a - 1 <
        ((computeLayout cw ch (some a)).1 : ℚ) ∧
      ((computeLayout cw ch (some a)).1 : ℚ) ≤
        ((computeLayout cw ch (some a)).2 : ℚ) * a)) ∧
    computeLayout cw ch none = computeLayout cw ch (some (16 / 10)) ∧
    computeLayout 1000 500 (some 2) = (952, 476) := by
  have ha' : ¬a = 0 := ne_of_gt ha
  have hmw : max (200 : ℚ) (cw - 24) = cw - 24 := max_eq_right (by linarith)
  have hmh : max (200 : ℚ) (ch - 24) = ch - 24 := max_eq_right (by linarith)
  have key : ((computeLayout cw ch (some a)).1 : ℚ) ≤ cw - 24 ∧
      ((computeLayout cw ch (some a)).2 : ℚ) ≤ ch - 24 ∧
      ((((computeLayout cw ch (some a)).1 : ℚ) / a - 1 <
          ((computeLayout cw ch (some a)).2 : ℚ) ∧
        ((computeLayout cw ch (some a)).2 : ℚ) ≤
          ((computeLayout cw ch (some a)).1 : ℚ) / a) ∨
       (((computeLayout cw ch (some a)).2 : ℚ) * a - 1 <
          ((computeLayout cw ch (some a)).1 : ℚ) ∧
        ((computeLayout cw ch (some a)).1 : ℚ) ≤
          ((computeLayout cw ch (some a)).2 : ℚ) * a)) := by
    simp only [computeLayout, if_neg ha', hmw, hmh]
    split
    · next hbr =>
      dsimp only
      have f1 : ((⌊ch - 24⌋ : ℤ) : ℚ) ≤ ch - 24 := Int.floor_le _
      have f3 : ((⌊((⌊cw - 24⌋ : ℤ) : ℚ) / a⌋ : ℤ) : ℚ) ≤
          ((⌊cw - 24⌋ : ℤ) : ℚ) / a := Int.floor_le _
      have f2 : ((⌊cw - 24⌋ : ℤ) : ℚ) ≤ cw - 24 := Int.floor_le _
      have hBa : (ch - 24) * a < ((⌊cw - 24⌋ : ℤ) : ℚ) := by
        have hlt : ch - 24 < ((⌊cw - 24⌋ : ℤ) : ℚ) / a := lt_of_lt_of_le hbr f3
        exact (lt_div_iff ha).mp hlt
      have fW : ((⌊((⌊ch - 24⌋ : ℤ) : ℚ) * a⌋ : ℤ) : ℚ) ≤
          ((⌊ch - 24⌋ : ℤ) : ℚ) * a := Int.floor_le _
      have fW2 : ((⌊ch - 24⌋ : ℤ) : ℚ) * a ≤ (ch - 24) * a :=
        mul_le_mul_of_nonneg_right f1 (le_of_lt ha)
      have fW3 := Int.sub_one_lt_floor (((⌊ch - 24⌋ : ℤ) : ℚ) * a)
      exact ⟨by linarith, f1, Or.inr ⟨by linarith, fW⟩⟩
    · next hbr =>
      push_neg at hbr
      dsimp only
      have f2 : ((⌊cw - 24⌋ : ℤ) : ℚ) ≤ cw - 24 := Int.floor_le _
      have f3 : ((⌊((⌊cw - 24⌋ : ℤ) : ℚ) / a⌋ : ℤ) : ℚ) ≤
          ((⌊cw - 24⌋ : ℤ) : ℚ) / a := Int.floor_le _
      have f4 := Int.sub_one_lt_floor (((⌊cw - 24⌋ : ℤ) : ℚ) / a)
      exact ⟨f2, hbr, Or.inl ⟨by linarith, f3⟩⟩
  exact ⟨key.1, key.2.1, key.2.2, by norm_num [computeLayout],
    by norm_num [computeLayout]⟩

theorem computeLayout_fits_witness :
    (224 : ℚ) ≤ 1000 ∧ (224 : ℚ) ≤ 500 ∧ (0 : ℚ) < 2 ∧
    ((computeLayout 1000 500 (some 2)).1 : ℚ) ≤ 1000 - 24 :=
  ⟨by norm_num, by norm_num, by norm_num,
   (computeLayout_fits 1000 500 2 (by norm_num) (by norm_num)
     (by norm_num)).1⟩

theorem mem_pathVertices_top (w neck ctrl : ℚ) (s : ℤ) :
    ((w, 0) : ℚ × ℚ) ∈ pathVertices (edgeCmdsTop w neck ctrl s) := by
  unfold edgeCmdsTop
  split <;> simp [pathVertices, cmdEndpoint]

theorem mem_pathVertices_right (w h neck ctrl : ℚ) (s : ℤ) :
    ((w, h) : ℚ × ℚ) ∈ pathVertices (edgeCmdsRight w h neck ctrl s) := by
  unfold edgeCmdsRight
  split <;> simp [pathVertices, cmdEndpoint]

theorem mem_pathVertices_bottom (w h neck ctrl : ℚ) (s : ℤ) :
    ((0, h) : ℚ × ℚ) ∈ pathVertices (edgeCmdsBottom w h neck ctrl s) := by
  unfold edgeCmdsBottom
  split <;> simp [pathVertices, cmdEndpoint]

/-- C7: for every positive width and height and any edge signs,
`piecePath` starts with a move to the cell's top-left corner, ends with
a close command, and tracing it (SVG semantics, `Z` returning to the
subpath start) ends where it started, at the top-left corner; the four
edges are emitted in the fixed order top, right, bottom, left — the path
visits the corners (w,0), (w,h), (0,h) in that order; when all four
signs are 0 the path is exactly the bounding rectangle; the tab
constants derive from min(width, height): the neck points sit at
w/2 ± 0.4×(0.23×min) and the tab peak at control offset
0.6×(0.23×min) in the sign's direction. -/
theorem piecePath_spec (w h : ℚ) (eT eR eB eL : ℤ)
    (hw : 0 < w) (hh : 0 < h) :
    (piecePath w h eT eR eB eL).head? = some (.move (0, 0)) ∧
    (piecePath w h eT eR eB eL).getLast? = some .close ∧
    pathEndpoint (piecePath w h eT eR eB eL) = (0, 0) ∧
    List.Sublist [((w, 0) : ℚ × ℚ), (w, h), (0, h)]
      (pathVertices (piecePath w h eT eR eB eL)) ∧
    (eT = 0 → eR = 0 → eB = 0 → eL = 0 →
      piecePath w h eT eR eB eL =
        [.move (0, 0), .line (w, 0), .line (w, h), .line (0, h),
         .close]) ∧
    (eT ≠ 0 →
      (piecePath w h eT eR eB eL)[1]? =
        some (.line (w / 2 - min w h * 0.23 * 0.4, 0)) ∧
      (piecePath w h eT eR eB eL)[2]? =
        some (.curve (w / 2 - min w h * 0.23 * 0.4, 0)
          (w / 2 - min w h * 0.23 * 0.4,
            -(eT : ℚ) * (min w h * 0.23 * 0.6))
          (w / 2, -(eT : ℚ) * (min w h * 0.23 * 0.6)))) := by
  refine ⟨rfl, ?_, ?_, ?_, ?_, ?_⟩
  · rcases eq_or_ne eT 0 with hT | hT <;>
      rcases eq_or_ne eR 0 with hR | hR <;>
        rcases eq_or_ne eB 0 with hB | hB <;>
          rcases eq_or_ne eL 0 with hL | hL <;>
            simp [piecePath, edgeCmdsTop, edgeCmdsRight, edgeCmdsBottom,
              edgeCmdsLeft, hT, hR, hB, hL]
  · rcases eq_or_ne eT 0 with hT | hT <;>
      rcases eq_or_ne eR 0 with hR | hR <;>
        rcases eq_or_ne eB 0 with hB | hB <;>
          rcases eq_or_ne eL 0 with hL | hL <;>
            simp [piecePath, edgeCmdsTop, edgeCmdsRight, edgeCmdsBottom,
              edgeCmdsLeft, hT, hR, hB, hL, pathEndpoint, traceCmds]
  · have hdecomp : pathVertices (piecePath w h eT eR eB eL) =
        ((0, 0) : ℚ × ℚ) ::
          (((pathVertices (edgeCmdsTop w (min w h * 0.23 * 0.4)
              (min w h * 0.23 * 0.6) eT) ++
            pathVertices (edgeCmdsRight w h (min w h * 0.23 * 0.4)
              (min w h * 0.23 * 0.6) eR)) ++
            pathVertices (edgeCmdsBottom w h (min w h * 0.23 * 0.4)
              (min w h * 0.23 * 0.6) eB)) ++
            pathVertices (edgeCmdsLeft h (min w h * 0.23 * 0.4)
              (min w h * 0.23 * 0.6) eL)) := by
      simp [piecePath, pathVertices, cmdEndpoint, List.filterMap_append,
        mul_assoc]
    rw [hdecomp]
    refine List.sublist_cons_of_sublist _ ?_
    refine List.Sublist.trans ?_ (List.sublist_append_left _ _)
    have hsplit : [((w, 0) : ℚ × ℚ), (w, h), (0, h)] =
        ([((w, 0) : ℚ × ℚ)] ++ [((w, h) : ℚ × ℚ)]) ++
          [((0, h) : ℚ × ℚ)] := rfl
    rw [hsplit]
    exact ((List.singleton_sublist.mpr
        (mem_pathVertices_top _ _ _ _)).append
      (List.singleton_sublist.mpr
        (mem_pathVertices_right _ _ _ _ _))).append
      (List.singleton_sublist.mpr (mem_pathVertices_bottom _ _ _ _ _))
  · intro hT hR hB hL
    subst hT hR hB hL
    simp [piecePath, edgeCmdsTop, edgeCmdsRight, edgeCmdsBottom,
      edgeCmdsLeft]
  · intro hT
    constructor <;>
      simp [piecePath, edgeCmdsTop, hT, List.cons_append]

theorem piecePath_spec_witness :
    (0 : ℚ) < 4 ∧ (0 : ℚ) < 2 ∧
    (piecePath 4 2 1 (-1) 0 1).head? = some (.move (0, 0)) :=
  ⟨by norm_num, by norm_num,
   (piecePath_spec 4 2 1 (-1) 0 1 (by norm_num) (by norm_num)).1⟩
